import Mathlib

/-!
Verification of the doomscroll extraction/ranking/repetition pipeline.

Shallow embedding of the repository's pure core:
  - the per-card review-state reducer (`useCardDeck`'s `swipeRight` /
    `swipeLeft` / `swipeUp` progress updaters, lib/store.ts),
  - the three-tier spaced-repetition queue (`buildQueue`, lib/repetition.ts),
  - the brace-block matcher, ranker and dispatcher (lib/extract.ts),
  - difficulty estimation and card generation (lib/generate.ts),
  - file filtering and the ingestion pipeline's decision structure
    (lib/github.ts, lib/ingest.ts).

JavaScript numbers that are only ever incremented/compared appear as `Nat`;
timestamps (`Date.now()`) as `Int`; nullable values as `Option`; thrown
errors as `Except String`.  JavaScript's `Array.prototype.sort` (guaranteed
stable) is modelled by a stable insertion sort on an `Int` key, which agrees
with any stable sort for a key-based comparator.
-/

namespace Doomscroll

/-! ## Data model (types/index.ts) -/

/-- `CardProgress` from types/index.ts: per-card review state.
`seen` is the consecutive-confirm counter, `lastSeen` a `Date.now()` stamp. -/
structure CardProgress where
  cardId : String
  seen : Nat
  mastered : Bool
  lastSeen : Int
  deriving DecidableEq

/-- `CardType` from types/index.ts is the same closed tag set as
`BlockType` in lib/extract.ts. -/
inductive BlockType where
  | function
  | type
  | concept
  | pattern
  | file
  deriving DecidableEq

/-- `CodeCard` from types/index.ts. `difficulty` is 1, 2 or 3. -/
structure CodeCard where
  id : String
  type : BlockType
  title : String
  filePath : String
  code : String
  language : String
  explanation : String
  difficulty : Nat
  deriving DecidableEq

/-! ## Review-state reducer (lib/store.ts, `useCardDeck`) -/

/-- One user action on the current card: swipe right (confirm),
swipe left (reject), swipe up (skip).  Confirm and reject carry the
`Date.now()` value observed at the action. -/
inductive SwipeAction where
  | confirm (now : Int)
  | reject (now : Int)
  | skip
  deriving DecidableEq

/-- `prev[id]?.seen ?? 0` from `swipeRight`. -/
def seenOf (st : Option CardProgress) : Nat :=
  match st with
  | some p => p.seen
  | none => 0

/-- `prev[id]?.mastered ?? false` from `swipeRight`. -/
def masteredOf (st : Option CardProgress) : Bool :=
  match st with
  | some p => p.mastered
  | none => false

/-- The per-card state transition of `useCardDeck`.  `confirm` is the
`setProgress` updater of `swipeRight` (lib/store.ts lines 81-101): the new
consecutive count is `prev+1`, `mastered` becomes `seen >= 3`, and the
returned flag is the mastery celebration (`setJustMasteredCard`), fired
exactly when `isMastered && !wasMastered`.  `reject` is `swipeLeft`
(lines 103-116): count reset to 0, `mastered` false.  `skip` is `swipeUp`:
review state untouched. -/
def applyAction (id : String) (st : Option CardProgress) :
    SwipeAction → Option CardProgress × Bool
  | .confirm now =>
      let seen := seenOf st + 1
      let wasMastered := masteredOf st
      let isMastered : Bool := decide (3 ≤ seen)
      (some { cardId := id, seen := seen, mastered := isMastered, lastSeen := now },
       isMastered && !wasMastered)
  | .reject now =>
      (some { cardId := id, seen := 0, mastered := false, lastSeen := now }, false)
  | .skip => (st, false)

/-- Fold step: threads the review state and counts emitted mastery signals. -/
def stepDeck (id : String) (acc : Option CardProgress × Nat) (a : SwipeAction) :
    Option CardProgress × Nat :=
  let next := applyAction id acc.1 a
  (next.1, acc.2 + (if next.2 then 1 else 0))

/-- Run a sequence of actions on one card starting from no review state
(the state before the card's first review), returning the final state and
the number of mastery signals emitted along the way. -/
def runDeck (id : String) (acts : List SwipeAction) : Option CardProgress × Nat :=
  acts.foldl (stepDeck id) (none, 0)

/-- Final review state after a sequence of actions on one card. -/
def runActions (id : String) (acts : List SwipeAction) : Option CardProgress :=
  (runDeck id acts).1

/-- Number of mastery signals emitted over a sequence of actions. -/
def countSignals (id : String) (acts : List SwipeAction) : Nat :=
  (runDeck id acts).2

/-! ## Stable sort

`Array.prototype.sort` with a key-based comparator (`κ a - κ b`) is
guaranteed stable and ascending; a stable ascending sort is uniquely
determined by the key, so it is modelled by insertion sort that inserts a
(earlier) element before the first element of equal or larger key. -/

/-- Insert `x` after every element of strictly smaller key, before the first
element of equal or larger key (so `x`, which occurred earlier in the input,
ends up before elements of equal key: stability). -/
def stInsert (κ : α → Int) (x : α) : List α → List α
  | [] => [x]
  | y :: ys => if κ y < κ x then y :: stInsert κ x ys else x :: y :: ys

/-- Stable ascending sort by an `Int` key. -/
def stSort (κ : α → Int) : List α → List α
  | [] => []
  | x :: xs => stInsert κ x (stSort κ xs)

/-! ## Spaced-repetition queue (lib/repetition.ts, `buildQueue`) -/

/-- Tier-1 membership: `!progress[c.id]` — no review-state entry. -/
def unseenP (progress : String → Option CardProgress) (c : CodeCard) : Bool :=
  (progress c.id).isNone

/-- Tier-2 membership: `p && !p.mastered && c.id !== justSwipedId`. -/
def needsWorkP (progress : String → Option CardProgress) (justSwipedId : Option String)
    (c : CodeCard) : Bool :=
  match progress c.id with
  | some p => !p.mastered && (some c.id != justSwipedId)
  | none => false

/-- Tier-3 membership: `p?.mastered && c.id !== justSwipedId`. -/
def masteredP (progress : String → Option CardProgress) (justSwipedId : Option String)
    (c : CodeCard) : Bool :=
  match progress c.id with
  | some p => p.mastered && (some c.id != justSwipedId)
  | none => false

/-- The sort key `progress[c.id].lastSeen` of tiers 2 and 3.  Within those
tiers the entry always exists (the source uses a non-null lookup); the
`none` arm is an arbitrary default that is never reached there. -/
def lastSeenKey (progress : String → Option CardProgress) (c : CodeCard) : Int :=
  match progress c.id with
  | some p => p.lastSeen
  | none => 0

/-- `buildQueue` from lib/repetition.ts: unseen cards in original order,
then not-mastered cards sorted by `lastSeen` ascending, then mastered cards
sorted by `lastSeen` ascending, with the just-swiped card excluded from
tiers 2 and 3. -/
def buildQueue (cards : List CodeCard) (progress : String → Option CardProgress)
    (justSwipedId : Option String) : List CodeCard :=
  let unseen := cards.filter (unseenP progress)
  let needsWork := stSort (lastSeenKey progress) (cards.filter (needsWorkP progress justSwipedId))
  let mastered := stSort (lastSeenKey progress) (cards.filter (masteredP progress justSwipedId))
  unseen ++ needsWork ++ mastered

/-! ## Extraction data model and ranker (lib/extract.ts) -/

/-- `ExtractedBlock` from lib/extract.ts. -/
structure ExtractedBlock where
  name : String
  type : BlockType
  code : String
  filePath : String
  language : String
  jsDoc : Option String
  lineCount : Nat
  deriving DecidableEq

/-- The string form of a `BlockType` tag, as it appears in the template
literal making up the dedup key. -/
def typeKey : BlockType → String
  | .function => "function"
  | .type => "type"
  | .concept => "concept"
  | .pattern => "pattern"
  | .file => "file"

/-- The dedup key of `rankBlocks`: the template literal
`` `${b.name}:${b.type}` ``. -/
def dedupKey (b : ExtractedBlock) : String :=
  b.name ++ ":" ++ typeKey b.type

/-- The dedup pass of `rankBlocks`: `blocks.filter` with a growing `seen`
set of keys — keep the first occurrence of each key, drop the rest.  The
`Set<string>` is modelled as the list of keys added so far. -/
def uniqueBlocks : List ExtractedBlock → List String → List ExtractedBlock
  | [], _ => []
  | b :: rest, seen =>
      if dedupKey b ∈ seen then uniqueBlocks rest seen
      else b :: uniqueBlocks rest (dedupKey b :: seen)

/-- Modelled from the claim's words, to be compared with `uniqueBlocks`:
deduplication directly by the pair (name, kind), first occurrence kept. -/
def dedupByPair : List ExtractedBlock → List (String × BlockType) → List ExtractedBlock
  | [], _ => []
  | b :: rest, seen =>
      if (b.name, b.type) ∈ seen then dedupByPair rest seen
      else b :: dedupByPair rest ((b.name, b.type) :: seen)

/-- JavaScript truthiness of `b.jsDoc : string | null`: `null` and the empty
string are falsy. -/
def docPresent : Option String → Bool
  | some d => d != ""
  | none => false

/-- The additive score of `rankBlocks`. -/
def score (b : ExtractedBlock) : Nat :=
  (if 8 ≤ b.lineCount ∧ b.lineCount ≤ 25 then 10
   else if 4 ≤ b.lineCount ∧ b.lineCount ≤ 35 then 5 else 0)
  + (if docPresent b.jsDoc then 5 else 0)
  + (if b.type = BlockType.function then 3 else 0)
  + (if b.type = BlockType.type then 2 else 0)

/-- `rankBlocks` from lib/extract.ts: dedup by key, score, then
`.sort((a, b) => b.score - a.score)` — a stable descending sort by score,
modelled as the stable ascending sort on the negated score.  The
intermediate `{block, score}` pairing is inverted by the final
`.map(s => s.block)` and the comparator reads only the score, so the
pairing is elided. -/
def rankBlocks (blocks : List ExtractedBlock) : List ExtractedBlock :=
  stSort (fun b => -(score b : Int)) (uniqueBlocks blocks [])

/-! ## Brace matcher (lib/extract.ts, `extractBraceBlock`)

The JS loop walks an absolute index `i` over `source` starting at
`startIdx` and returns `source.slice(startIdx, i + 1)` when the depth
returns to zero; equivalently, it walks the suffix
`source.data.drop startIdx` and returns the consumed prefix through the
closing brace, which is how it is modelled here. -/

/-- The inner string-skipping loop of `extractBraceBlock`: starting just
after an opening quote `q`, advance until the unescaped closing quote
(an escape character consumes the following character unconditionally).
Returns the consumed characters and the remaining suffix, which begins
with the closing quote when one was found and is empty otherwise. -/
def skipStr (q : Char) : List Char → List Char × List Char
  | [] => ([], [])
  | c :: t =>
      if c == q then ([], c :: t)
      else if c == '\x5c' then
        match t with
        | [] => ([c], [])
        | c2 :: t2 =>
            let r := skipStr q t2
            (c :: c2 :: r.1, r.2)
      else
        let r := skipStr q t
        (c :: r.1, r.2)

/-- `skipStr` splits its input: consumed ++ remainder = input.  (Stated as a
`def` because `braceLoop`'s termination argument needs it.) -/
def skipStr_sound (q : Char) : ∀ l : List Char, (skipStr q l).1 ++ (skipStr q l).2 = l := by
  intro l
  induction l using skipStr.induct q with
  | case1 => rfl
  | case2 c t h => rw [skipStr.eq_def]; simp [h]
  | case3 c h1 h2 => rw [skipStr.eq_def]; simp [h1, h2]
  | case4 c h1 h2 c2 t2 ih => rw [skipStr.eq_def]; simp [h1, h2, ih]
  | case5 c t h1 h2 ih => rw [skipStr.eq_def]; simp [h1, h2, ih]

/-- Skipping a string literal strictly shrinks the remaining input.
(A `def` because the termination arguments below need it.) -/
def skipStr_snd_length_lt (q : Char) (l : List Char) {c : Char} {r2 : List Char}
    (h : (skipStr q l).2 = c :: r2) : r2.length < l.length + 1 := by
  have hs := skipStr_sound q l
  rw [h] at hs
  have := congrArg List.length hs
  simp at this
  omega

/-- The main loop of `extractBraceBlock`: depth counting over the suffix,
skipping string/char/template literals, returning the consumed prefix
through the brace that brings the depth back to zero (after having opened
at least once), or `none` at end of input. -/
def braceLoop : Int → Bool → List Char → Option (List Char)
  | _, _, [] => none
  | depth, foundOpen, ch :: rest =>
      if ch == '\x7b' then
        (braceLoop (depth + 1) true rest).map (fun blk => ch :: blk)
      else if ch == '\x7d' then
        if foundOpen && (depth - 1 == 0) then some [ch]
        else (braceLoop (depth - 1) foundOpen rest).map (fun blk => ch :: blk)
      else if (ch == '\x22' || ch == '\x27' || ch == '\x60') then
        match h : (skipStr ch rest).2 with
        | [] => none
        | q2 :: r2 =>
            (braceLoop depth foundOpen r2).map
              (fun blk => ch :: ((skipStr ch rest).1 ++ q2 :: blk))
      else
        (braceLoop depth foundOpen rest).map (fun blk => ch :: blk)
termination_by _ _ l => l.length
decreasing_by
  · simp
  · simp
  · simpa using skipStr_snd_length_lt _ _ h
  · simp

/-- The specification-side depth count: net number of opening minus closing
curly braces, counted outside string/char/template literals with the same
literal-skipping discipline as the matcher.  Used to state what "balanced"
means for the returned block. -/
def countNet : List Char → Int
  | [] => 0
  | ch :: rest =>
      if ch == '\x7b' then 1 + countNet rest
      else if ch == '\x7d' then -1 + countNet rest
      else if (ch == '\x22' || ch == '\x27' || ch == '\x60') then
        match h : (skipStr ch rest).2 with
        | [] => 0
        | _ :: r2 => countNet r2
      else countNet rest
termination_by l => l.length
decreasing_by
  · simp
  · simp
  · simpa using skipStr_snd_length_lt _ _ h
  · simp

/-- `extractBraceBlock` from lib/extract.ts: extract a balanced brace block
starting from a position, or `null`. -/
def extractBraceBlock (source : String) (startIdx : Nat) : Option String :=
  (braceLoop 0 false (source.data.drop startIdx)).map (fun blk => String.mk blk)

/-! ## Difficulty estimation and card generation (lib/generate.ts) -/

/-- JavaScript `\w`: ASCII letters, digits and underscore. -/
def isWordChar (c : Char) : Bool := c.isAlphanum || c == '_'

/-- `String.prototype.includes` — substring containment. -/
def isSubstrAux (pat : List Char) : List Char → Bool
  | [] => pat.isEmpty
  | c :: rest => pat.isPrefixOf (c :: rest) || isSubstrAux pat rest

/-- `s.includes(sub)`. -/
def jsIncludes (s sub : String) : Bool := isSubstrAux sub.data s.data

/-- The `\b` assertion of `new RegExp("\\b" + name + "(")` sits between the
previous character and the first character of the pattern (`name`'s head,
or `(` when `name` is empty): it holds when exactly one of the two is a
word character, start-of-input counting as a non-word side. -/
def wordBoundary (name : List Char) (prev : Option Char) : Bool :=
  match name.head? with
  | some c =>
      if isWordChar c then
        match prev with
        | none => true
        | some p => !isWordChar p
      else
        match prev with
        | none => false
        | some p => isWordChar p
  | none =>
      match prev with
      | none => false
      | some p => isWordChar p

/-- `code.match(new RegExp("\\b" + name + "\\(", "g")).length`: the number of
non-overlapping, left-to-right matches of the literal `name` followed by an
opening parenthesis at a word boundary.  The name is interpolated into the
regex unescaped; as in the claim's own reading ("literal
substring/identifier-boundary match") it is modelled as a literal, which
coincides with the regex for the identifier-shaped names the extractors
produce. -/
def countCallsAux (name : List Char) : Option Char → List Char → Nat
  | prev, s =>
      if h : (name ++ ['(']).isPrefixOf s ∧ wordBoundary name prev = true then
        1 + countCallsAux name (some '(') (s.drop (name ++ ['(']).length)
      else
        match s with
        | [] => 0
        | c :: rest => countCallsAux name (some c) rest
termination_by _ s => s.length
decreasing_by
  · have hp := (List.isPrefixOf_iff_prefix.mp h.1).length_le
    simp at hp ⊢
    omega
  · simp

/-- Match count over a whole code string, no previous character at start. -/
def countCalls (name code : String) : Nat := countCallsAux name.data none code.data

/-- The running-depth scan of `estimateDifficulty`: two independent `if`s
update the depth, then `maxDepth = Math.max(maxDepth, depth)` after every
character; strings are deliberately not skipped. -/
def depthScan : List Char → Int → Int → Int
  | [], _, m => m
  | c :: rest, d, m =>
      let d1 := if c == '\x7b' then d + 1 else d
      let d2 := if c == '\x7d' then d1 - 1 else d1
      depthScan rest d2 (max m d2)

/-- `estimateDifficulty` from lib/generate.ts: an additive integer
complexity score mapped to tiers (`>= 4` gives 3, `>= 2` gives 2, else 1). -/
def estimateDifficulty (block : ExtractedBlock) : Nat :=
  let complexity1 : Nat := if block.lineCount > 20 then 2
    else if block.lineCount > 10 then 1 else 0
  let maxDepth := depthScan block.code.data 0 0
  let complexity2 := complexity1 + (if maxDepth > 4 then 2 else if maxDepth > 2 then 1 else 0)
  let complexity3 := complexity2 +
    (if jsIncludes block.code "<" && jsIncludes block.code ">" then 1 else 0)
  let complexity4 := complexity3 +
    (if jsIncludes block.code "async" || jsIncludes block.code "await" then 1 else 0)
  let complexity5 := complexity4 +
    (if block.type == BlockType.function && decide (countCalls block.name block.code > 1)
     then 2 else 0)
  if complexity5 ≥ 4 then 3 else if complexity5 ≥ 2 then 2 else 1

/-- The line-count summand of the claim's formula. -/
def lineBonus (n : Nat) : Nat := if n > 20 then 2 else if n > 10 then 1 else 0

/-- The nesting summand of the claim's formula. -/
def nestBonus (code : String) : Nat :=
  let m := depthScan code.data 0 0
  if m > 4 then 2 else if m > 2 then 1 else 0

/-- The generics summand of the claim's formula. -/
def genericBonus (code : String) : Nat :=
  if jsIncludes code "<" && jsIncludes code ">" then 1 else 0

/-- The async-marker summand of the claim's formula. -/
def asyncBonus (code : String) : Nat :=
  if jsIncludes code "async" || jsIncludes code "await" then 1 else 0

/-- The recursion summand as the code computes it: boundary matches of
`name(` counted over the whole block text, declaration header included. -/
def recursionBonus (b : ExtractedBlock) : Nat :=
  if b.type == BlockType.function && decide (countCalls b.name b.code > 1) then 2 else 0

/-- The tier mapping of the complexity score. -/
def tierOf (complexity : Nat) : Nat :=
  if complexity ≥ 4 then 3 else if complexity ≥ 2 then 2 else 1

/-- Modelled from the claim's words, to be compared with
`estimateDifficulty`: the recursion heuristic counts call sites of the
function's own name "inside its own body" — the text from the block's
first opening brace — more than once, rather than over the whole block
text. -/
def bodyCallCount (name code : String) : Nat :=
  countCallsAux name.data none (code.data.dropWhile (fun c => !(c == '\x7b')))

/-- Modelled from the claim's words: the difficulty with the recursion
bonus restricted to call sites inside the body. -/
def estimateDifficultyClaimed (b : ExtractedBlock) : Nat :=
  tierOf (lineBonus b.lineCount + nestBonus b.code + genericBonus b.code + asyncBonus b.code
    + (if b.type == BlockType.function && decide (bodyCallCount b.name b.code > 1)
       then 2 else 0))

/-- A one-line exported function whose body calls it exactly once:
`function f(){f()}`. -/
def recursionCexBlock : ExtractedBlock :=
  { name := "f", type := BlockType.function,
    code := "function f()\x7bf()\x7d",
    filePath := "x.ts", language := "typescript", jsDoc := none, lineCount := 1 }

/-- `generateExplanation` from lib/generate.ts: the author's doc text when
(truthily) present, else a per-kind template over the containing directory
and the name. -/
def generateExplanation (block : ExtractedBlock) : String :=
  if docPresent block.jsDoc then block.jsDoc.getD ""
  else
    let dir := String.intercalate "/" ((block.filePath.splitOn "/").dropLast)
    let dirHint := if dir != "" then " in " ++ dir else ""
    match block.type with
    | BlockType.function =>
        "Exported function" ++ dirHint ++ ". Read the code to understand what "
          ++ block.name ++ " does and when you\x27d use it."
    | BlockType.type =>
        "Type definition" ++ dirHint ++ ". Defines the shape of " ++ block.name
          ++ " — study the fields and their constraints."
    | BlockType.concept =>
        "Class" ++ dirHint ++ ". Encapsulates " ++ block.name
          ++ " — look at the methods and how state is managed."
    | BlockType.pattern =>
        "Pattern" ++ dirHint ++ ". A reusable approach to a recurring problem."
    | BlockType.file =>
        "Key file" ++ dirHint ++ ". Read through to understand the module\x27s responsibilities."

/-- `MAX_CARDS` from lib/generate.ts. -/
def MAX_CARDS : Nat := 50

/-- `generateCards` from lib/generate.ts.  `blockTypeToCardType` is an
identity cast between the two equal tag sets, so `type` carries over
unchanged. -/
def generateCards (blocks : List ExtractedBlock) (maxCards : Nat) : List CodeCard :=
  (blocks.take maxCards).mapIdx fun i block =>
    { id := "gen-" ++ toString i ++ "-" ++ block.name,
      type := block.type,
      title := block.name,
      filePath := block.filePath,
      code := block.code,
      language := block.language,
      explanation := generateExplanation block,
      difficulty := estimateDifficulty block }

/-! ## Dispatcher and ingestion (lib/extract.ts, lib/github.ts, lib/ingest.ts) -/

/-- `FileContent` from lib/github.ts. -/
structure FileContent where
  path : String
  content : String
  deriving DecidableEq

/-- `detectLanguage` from lib/extract.ts: extension table with a "text"
default. -/
def detectLanguage (path : String) : String :=
  match (path.splitOn ".").getLastD "" with
  | "ts" => "typescript"
  | "tsx" => "typescript"
  | "js" => "javascript"
  | "jsx" => "javascript"
  | "py" => "python"
  | "rs" => "rust"
  | "go" => "go"
  | "swift" => "swift"
  | "kt" => "kotlin"
  | _ => "text"

/-- The five per-language extractors (`extractTS`, `extractPython`,
`extractRust`, `extractGo`, `extractSwift` in lib/extract.ts) are
regex-driven lexical scanners; every claim settled here quantifies over
their output (each hypothesis is stated in terms of what they return), so
they enter the model as an explicit dispatch table, mirroring the `switch`
in `extractBlocks`, rather than being re-implemented scanner for scanner. -/
structure LangExtractors where
  ts : String → FileContent → String → List ExtractedBlock
  python : String → FileContent → List ExtractedBlock
  rust : String → FileContent → List ExtractedBlock
  go : String → FileContent → List ExtractedBlock
  swift : String → FileContent → List ExtractedBlock

/-- `src.split("\n").length`. -/
def countLines (s : String) : Nat := (s.splitOn "\n").length

/-- The language `switch` of `extractBlocks`. -/
def dispatchExtract (ex : LangExtractors) (file : FileContent) : List ExtractedBlock :=
  let lang := detectLanguage file.path
  let src := file.content
  match lang with
  | "python" => ex.python src file
  | "rust" => ex.rust src file
  | "go" => ex.go src file
  | "swift" => ex.swift src file
  | _ => ex.ts src file lang

/-- `extractBlocks` from lib/extract.ts: dispatch on language, and when
nothing was found and the file is at most 40 lines, push one whole-file
block named by the filename over the trimmed content. -/
def extractBlocks (ex : LangExtractors) (file : FileContent) : List ExtractedBlock :=
  let lang := detectLanguage file.path
  let src := file.content
  let blocks := dispatchExtract ex file
  if blocks.length = 0 ∧ countLines src ≤ 40 then
    [{ name := (file.path.splitOn "/").getLastD file.path, type := BlockType.file,
       code := src.trim, filePath := file.path, language := lang, jsDoc := none,
       lineCount := countLines src }]
  else blocks

/-- `TreeEntry` from lib/github.ts (`size` is optional in the API). -/
structure TreeEntry where
  path : String
  type : String
  size : Option Nat
  deriving DecidableEq

/-- `CODE_EXTENSIONS` from lib/github.ts (a `Set`, modelled as the list of
its elements). -/
def CODE_EXTENSIONS : List String :=
  [".ts", ".tsx", ".js", ".jsx", ".py", ".rs", ".go", ".swift", ".kt"]

/-- `filterCodeFiles` from lib/github.ts: keep supported extensions, drop
tests/config/generated paths and very large files (`entry.size &&
entry.size > 50000` — a missing or zero size is falsy and keeps the
file). -/
def filterCodeFiles (tree : List TreeEntry) : List TreeEntry :=
  tree.filter fun entry =>
    let ext := "." ++ (entry.path.splitOn ".").getLastD ""
    if !(CODE_EXTENSIONS.contains ext) then false
    else if jsIncludes entry.path "__tests__" then false
    else if jsIncludes entry.path ".test." then false
    else if jsIncludes entry.path ".spec." then false
    else if jsIncludes entry.path "node_modules" then false
    else if jsIncludes entry.path ".d.ts" then false
    else if jsIncludes entry.path "dist/" then false
    else if jsIncludes entry.path "build/" then false
    else if (entry.size.getD 0) > 50000 then false
    else true

/-- `RepoMeta` from lib/github.ts. -/
structure RepoMeta where
  name : String
  fullName : String
  description : Option String
  stars : Nat
  language : Option String
  defaultBranch : String
  deriving DecidableEq

/-- `IngestResult` from lib/ingest.ts. -/
structure IngestResult where
  meta : RepoMeta
  cards : List CodeCard
  deriving DecidableEq

/-- `ingestRepo` from lib/ingest.ts, as a pure function of the network
collaborator's outputs: the parse result (`parseRepoInput`), the repo
metadata (`fetchRepo`), the blob tree (`fetchTree`) and the fetched file
contents (`fetchFiles`) are supplied as inputs; `onStatus` calls are
presentation side effects with no bearing on the result, and a thrown
`Error` is the `Except.error` case. -/
def ingestRepo (ex : LangExtractors) (parsed : Option (String × String)) (meta : RepoMeta)
    (tree : List TreeEntry) (files : List FileContent) : Except String IngestResult :=
  match parsed with
  | none => Except.error "Invalid repo format. Use owner/repo or a GitHub URL."
  | some _ =>
      let codeFiles := filterCodeFiles tree
      if codeFiles.length = 0 then
        Except.error "No supported code files found in this repo."
      else
        let allBlocks := files.flatMap (fun f => extractBlocks ex f)
        let ranked := rankBlocks allBlocks
        if ranked.length = 0 then
          Except.error ("Couldn\x27t extract any learnable code blocks.")
        else
          Except.ok { meta := meta, cards := generateCards ranked MAX_CARDS }

/-- A dispatch table whose extractors all return no blocks, used to
instantiate the fallback and emptiness claims. -/
def emptyExtractors : LangExtractors :=
  { ts := fun _ _ _ => [], python := fun _ _ => [], rust := fun _ _ => [],
    go := fun _ _ => [], swift := fun _ _ => [] }

/-- A sample repo metadata record for instantiations. -/
def sampleMeta : RepoMeta :=
  { name := "r", fullName := "o/r", description := none, stars := 0,
    language := none, defaultBranch := "main" }

/-! ## Theorems -/

theorem runDeck_append (id : String) (l l' : List SwipeAction) :
    runDeck id (l ++ l') = l'.foldl (stepDeck id) (runDeck id l) := by
  simp [runDeck, List.foldl_append]

/-- Closed form for a pure run of `n` confirms from scratch. -/
theorem runDeck_replicate_confirm (id : String) (n : Nat) :
    runDeck id (List.replicate n (SwipeAction.confirm 0)) =
      (if n = 0 then none else
        some { cardId := id, seen := n, mastered := decide (3 ≤ n), lastSeen := 0 },
       if 3 ≤ n then 1 else 0) := by
  induction n with
  | zero => rfl
  | succ n ih =>
      rw [List.replicate_succ', runDeck_append, ih]
      rcases Nat.eq_zero_or_pos n with hn | hn
      · subst hn; rfl
      · have hn0 : ¬ n = 0 := Nat.pos_iff_ne_zero.mp hn
        simp only [if_neg hn0, List.foldl_cons, List.foldl_nil, stepDeck, applyAction,
          seenOf, masteredOf]
        have hs1 : ¬ (n + 1 = 0) := by omega
        rw [if_neg hs1]
        by_cases h3 : 3 ≤ n
        · have h3' : 3 ≤ n + 1 := by omega
          simp [h3, h3']
        · by_cases h2 : n = 2
          · subst h2; simp
          · have h3' : ¬ 3 ≤ n + 1 := by omega
            simp [h3, h3']

/-- Claim C1: starting from no review state, each confirm (swipe right)
increments the consecutive-confirm counter (`seen`) by exactly 1; after `n`
straight confirms the counter is `n` and `mastered` holds iff `3 ≤ n`, so
mastery arrives exactly on the 3rd confirm; exactly one mastery signal is
emitted over any run of `n ≥ 3` straight confirms (none for `n < 3`), so it
fires on the 3rd confirm and never again on the 4th; and one subsequent
reject (swipe left) resets the counter to 0 and `mastered` to false. -/
theorem C1_reducer_trace (id : String) (st : Option CardProgress) (now : Int) (n : Nat) :
    seenOf (applyAction id st (SwipeAction.confirm now)).1 = seenOf st + 1
  ∧ seenOf (runActions id (List.replicate n (SwipeAction.confirm 0))) = n
  ∧ masteredOf (runActions id (List.replicate n (SwipeAction.confirm 0))) = decide (3 ≤ n)
  ∧ countSignals id (List.replicate n (SwipeAction.confirm 0)) = (if 3 ≤ n then 1 else 0)
  ∧ runActions id (List.replicate n (SwipeAction.confirm 0) ++ [SwipeAction.reject now])
      = some { cardId := id, seen := 0, mastered := false, lastSeen := now } := by
  refine ⟨rfl, ?_, ?_, ?_, ?_⟩
  · rw [runActions, runDeck_replicate_confirm]
    by_cases hn : n = 0 <;> simp [hn, seenOf]
  · rw [runActions, runDeck_replicate_confirm]
    by_cases hn : n = 0
    · subst hn; simp [masteredOf]
    · simp [hn, masteredOf]
  · rw [countSignals, runDeck_replicate_confirm]
  · rw [runActions, runDeck_append, runDeck_replicate_confirm]
    by_cases hn : n = 0 <;> simp [hn, stepDeck, applyAction]

/-- Claim C3: every review state reachable from no state by any sequence of
confirm / reject / skip actions satisfies `mastered ↔ seen ≥ 3`. -/
theorem C3_mastered_iff_three (id : String) (acts : List SwipeAction) (p : CardProgress)
    (h : runActions id acts = some p) : p.mastered = true ↔ 3 ≤ p.seen := by
  have key : ∀ (l : List SwipeAction) (st : Option CardProgress) (k : Nat),
      (∀ q, st = some q → (q.mastered = true ↔ 3 ≤ q.seen)) →
      ∀ q, (l.foldl (stepDeck id) (st, k)).1 = some q → (q.mastered = true ↔ 3 ≤ q.seen) := by
    intro l
    induction l with
    | nil => intro st k hst q hq; exact hst q hq
    | cons a t ih =>
        intro st k hst q hq
        rw [List.foldl_cons] at hq
        rcases a with now | now | _
        · refine ih _ _ ?_ q hq
          intro r hr
          simp only [stepDeck, applyAction] at hr
          rcases hr with rfl | h'
          · constructor
            · intro hm; exact of_decide_eq_true hm
            · intro hs; simpa using hs
        · refine ih _ _ ?_ q hq
          intro r hr
          simp only [stepDeck, applyAction] at hr
          rcases hr with rfl | h'
          · simp
        · exact ih _ _ (by simpa [stepDeck, applyAction] using hst) q hq
  refine key acts none 0 ?_ p h
  intro q hq; cases hq

/-- Concrete instantiation of C3: the state after three straight confirms
satisfies the invariant. -/
theorem C3_mastered_iff_three_witness :
    (CardProgress.mk "x" 3 true 0).mastered = true ↔ 3 ≤ (CardProgress.mk "x" 3 true 0).seen :=
  C3_mastered_iff_three "x"
    [SwipeAction.confirm 0, SwipeAction.confirm 0, SwipeAction.confirm 0]
    (CardProgress.mk "x" 3 true 0) (by decide)

/-- Claim C10: the mastery signal is exactly the false-to-true transition of
the `mastered` flag on a confirm — `isMastered && !wasMastered` — so it
re-fires on re-mastery: over confirm ×3, reject, confirm ×3 the signal is
emitted twice, once per transition, not once per card lifetime. -/
theorem C10_signal_refires (id : String) (st : Option CardProgress) (now : Int) :
    (applyAction id st (SwipeAction.confirm now)).2
      = (masteredOf (applyAction id st (SwipeAction.confirm now)).1 && !masteredOf st)
  ∧ countSignals id [SwipeAction.confirm 0, SwipeAction.confirm 0, SwipeAction.confirm 0,
      SwipeAction.reject 0, SwipeAction.confirm 0, SwipeAction.confirm 0,
      SwipeAction.confirm 0] = 2 := by
  constructor
  · rfl
  · rfl

theorem stInsert_perm (κ : α → Int) (x : α) (l : List α) :
    (stInsert κ x l).Perm (x :: l) := by
  induction l with
  | nil => rfl
  | cons y ys ih =>
      rw [stInsert]
      by_cases h : κ y < κ x
      · rw [if_pos h]
        exact ((ih.cons y).trans (List.Perm.swap x y ys))
      · rw [if_neg h]

theorem stSort_perm (κ : α → Int) (l : List α) : (stSort κ l).Perm l := by
  induction l with
  | nil => rfl
  | cons x xs ih => exact (stInsert_perm κ x (stSort κ xs)).trans (ih.cons x)

theorem stInsert_pairwise (κ : α → Int) (x : α) (l : List α)
    (h : l.Pairwise (fun a b => κ a ≤ κ b)) :
    (stInsert κ x l).Pairwise (fun a b => κ a ≤ κ b) := by
  induction l with
  | nil => simp [stInsert]
  | cons y ys ih =>
      rw [List.pairwise_cons] at h
      rw [stInsert]
      by_cases hyx : κ y < κ x
      · rw [if_pos hyx]
        rw [List.pairwise_cons]
        refine ⟨?_, ih h.2⟩
        intro b hb
        rcases List.mem_cons.mp (((stInsert_perm κ x ys).mem_iff).mp hb) with hbx | hb'
        · subst hbx; exact le_of_lt hyx
        · exact h.1 b hb'
      · rw [if_neg hyx]
        rw [List.pairwise_cons]
        refine ⟨?_, List.pairwise_cons.mpr h⟩
        intro b hb
        rcases List.mem_cons.mp hb with hby | hb'
        · subst hby; exact le_of_not_lt hyx
        · exact le_trans (le_of_not_lt hyx) (h.1 b hb')

theorem stSort_pairwise (κ : α → Int) (l : List α) :
    (stSort κ l).Pairwise (fun a b => κ a ≤ κ b) := by
  induction l with
  | nil => simp [stSort]
  | cons x xs ih => exact stInsert_pairwise κ x (stSort κ xs) ih

/-- Stability of insertion: among the elements of any fixed key, the inserted
element lands first exactly when its key matches, else the filter is
untouched. -/
theorem stInsert_filter (κ : α → Int) (x : α) (l : List α) (s : Int) :
    (stInsert κ x l).filter (fun a => κ a == s) =
      if κ x = s then x :: l.filter (fun a => κ a == s)
      else l.filter (fun a => κ a == s) := by
  induction l with
  | nil => by_cases hx : κ x = s <;> simp [stInsert, hx]
  | cons y ys ih =>
      rw [stInsert]
      by_cases hyx : κ y < κ x
      · rw [if_pos hyx, List.filter_cons, ih]
        by_cases hy : κ y = s
        · have hx : ¬ κ x = s := by omega
          rw [if_neg hx, if_neg hx]
          simp [hy, List.filter_cons]
        · simp [hy, List.filter_cons]
      · rw [if_neg hyx]
        by_cases hx : κ x = s <;> simp [List.filter_cons, hx]

/-- Stability of the sort: the elements of any fixed key keep their input
order. -/
theorem stSort_filter (κ : α → Int) (l : List α) (s : Int) :
    (stSort κ l).filter (fun a => κ a == s) = l.filter (fun a => κ a == s) := by
  induction l with
  | nil => rfl
  | cons x xs ih =>
      rw [stSort, stInsert_filter]
      by_cases hx : κ x = s <;> simp [hx, ih, List.filter_cons]

/-- Concatenated disjoint filters are a permutation of the filter of the
disjunction. -/
theorem filter_three_perm (p q r : α → Bool) (l : List α)
    (hpq : ∀ a, p a = true → q a = false)
    (hpr : ∀ a, p a = true → r a = false)
    (hqr : ∀ a, q a = true → r a = false) :
    (l.filter p ++ l.filter q ++ l.filter r).Perm
      (l.filter (fun a => p a || (q a || r a))) := by
  induction l with
  | nil => rfl
  | cons a t ih =>
      by_cases hp : p a = true
      · rw [List.filter_cons_of_pos hp, List.filter_cons_of_neg (by simp [hpq a hp]),
          List.filter_cons_of_neg (by simp [hpr a hp]),
          List.filter_cons_of_pos (by simp [hp])]
        exact ih.cons a
      · by_cases hq : q a = true
        · rw [List.filter_cons_of_neg (by simp [hp]), List.filter_cons_of_pos hq,
            List.filter_cons_of_neg (by simp [hqr a hq]),
            List.filter_cons_of_pos (by simp [hq])]
          have e1 : t.filter p ++ (a :: t.filter q) ++ t.filter r
              = t.filter p ++ a :: (t.filter q ++ t.filter r) := by simp
          rw [e1]
          refine List.perm_middle.trans (List.Perm.cons a ?_)
          rw [← List.append_assoc]
          exact ih
        · by_cases hr : r a = true
          · rw [List.filter_cons_of_neg (by simp [hp]), List.filter_cons_of_neg (by simp [hq]),
              List.filter_cons_of_pos hr, List.filter_cons_of_pos (by simp [hr])]
            exact List.perm_middle.trans (List.Perm.cons a ih)
          · rw [List.filter_cons_of_neg (by simp [hp]), List.filter_cons_of_neg (by simp [hq]),
              List.filter_cons_of_neg (by simp [hr]),
              List.filter_cons_of_neg (by simp [hp, hq, hr])]
            exact ih

theorem tier_predicates_cover (progress : String → Option CardProgress)
    (j : Option String) (c : CodeCard) :
    (unseenP progress c || (needsWorkP progress j c || masteredP progress j c)) =
      !((progress c.id).isSome && (j == some c.id)) := by
  cases h : progress c.id with
  | none => simp [unseenP, needsWorkP, masteredP, h]
  | some p =>
      cases hm : p.mastered <;> cases hj : (some c.id != j) <;>
        simp_all [unseenP, needsWorkP, masteredP, h, bne, BEq.comm]

theorem length_filter_key_le_one (l : List CodeCard) (g : CodeCard → Bool) (jid : String)
    (hids : (l.map CodeCard.id).Nodup) :
    (l.filter (fun c => g c && (jid == c.id))).length ≤ 1 := by
  induction l with
  | nil => simp
  | cons c t ih =>
      rw [List.map_cons, List.nodup_cons] at hids
      by_cases hc : (g c && (jid == c.id)) = true
      · have hid : jid = c.id := eq_of_beq ((Bool.and_eq_true _ _).mp hc).2
        have hnil : t.filter (fun c => g c && (jid == c.id)) = [] := by
          rw [List.filter_eq_nil_iff]
          intro x hx hgx
          have hxid : jid = x.id := eq_of_beq ((Bool.and_eq_true _ _).mp hgx).2
          refine hids.1 ?_
          rw [← hid, hxid]
          exact List.mem_map_of_mem CodeCard.id hx
        simp [List.filter_cons, hc, hnil]
      · have : (List.filter (fun c => g c && (jid == c.id)) (c :: t))
            = List.filter (fun c => g c && (jid == c.id)) t := by
          simp [List.filter_cons, hc]
        rw [this]
        exact ih hids.2

/-- Claim C2: `buildQueue` returns a permutation of the input cards minus
exactly those excluded by `justSwipedId` (which, by the tier predicates, are
the cards with a review-state entry and a matching id — at most one card
when ids are distinct); the queue decomposes as the unseen cards in their
original relative order, followed by the not-mastered tier, followed by the
mastered tier, the latter two each ascending in `lastSeen`. -/
theorem C2_buildQueue_postcondition (cards : List CodeCard)
    (progress : String → Option CardProgress) (j : Option String)
    (hids : (cards.map CodeCard.id).Nodup) :
    (buildQueue cards progress j).Perm
        (cards.filter (fun c => !((progress c.id).isSome && (j == some c.id))))
  ∧ (cards.filter (fun c => (progress c.id).isSome && (j == some c.id))).length ≤ 1
  ∧ ∃ B C, buildQueue cards progress j = cards.filter (unseenP progress) ++ B ++ C
      ∧ B.Perm (cards.filter (needsWorkP progress j))
      ∧ C.Perm (cards.filter (masteredP progress j))
      ∧ B.Pairwise (fun a b => lastSeenKey progress a ≤ lastSeenKey progress b)
      ∧ C.Pairwise (fun a b => lastSeenKey progress a ≤ lastSeenKey progress b) := by
  refine ⟨?_, ?_, ?_⟩
  · have h1 : (buildQueue cards progress j).Perm
        (cards.filter (unseenP progress) ++ cards.filter (needsWorkP progress j)
          ++ cards.filter (masteredP progress j)) := by
      unfold buildQueue
      exact ((stSort_perm _ _).append_left _).append (stSort_perm _ _)
    refine h1.trans ?_
    have h2 := filter_three_perm (unseenP progress) (needsWorkP progress j)
      (masteredP progress j) cards ?_ ?_ ?_
    · refine h2.trans ?_
      rw [List.filter_congr]
      intro c _
      exact tier_predicates_cover progress j c
    · intro c hu
      cases h : progress c.id with
      | none => simp [needsWorkP, h]
      | some p => simp [unseenP, h] at hu
    · intro c hu
      cases h : progress c.id with
      | none => simp [masteredP, h]
      | some p => simp [unseenP, h] at hu
    · intro c hn
      cases h : progress c.id with
      | none => simp [needsWorkP, h] at hn
      | some p =>
          simp only [needsWorkP, h, Bool.and_eq_true] at hn
          have hm : p.mastered = false := by simpa using hn.1
          simp [masteredP, h, hm]
  · cases j with
    | none => simp
    | some jid =>
        have := length_filter_key_le_one cards (fun c => (progress c.id).isSome) jid hids
        simpa using this
  · exact ⟨_, _, rfl, stSort_perm _ _, stSort_perm _ _, stSort_pairwise _ _,
      stSort_pairwise _ _⟩

/-- Concrete instantiation of C2 on a two-card deck with one reviewed card
excluded by the just-swiped id. -/
theorem C2_buildQueue_postcondition_witness :
    (buildQueue [⟨"a", .function, "a", "a.ts", "x", "typescript", "e", 1⟩,
        ⟨"b", .type, "b", "b.ts", "y", "typescript", "e", 1⟩]
        (fun s => if s = "a" then some ⟨"a", 1, false, 5⟩ else none) (some "a")).Perm
        (([⟨"a", .function, "a", "a.ts", "x", "typescript", "e", 1⟩,
          ⟨"b", .type, "b", "b.ts", "y", "typescript", "e", 1⟩] : List CodeCard).filter
          (fun c => !(((fun s => if s = "a" then some (⟨"a", 1, false, 5⟩ : CardProgress)
            else none) c.id).isSome && (some "a" == some c.id))))
  ∧ (([⟨"a", .function, "a", "a.ts", "x", "typescript", "e", 1⟩,
        ⟨"b", .type, "b", "b.ts", "y", "typescript", "e", 1⟩] : List CodeCard).filter
        (fun c => ((fun s => if s = "a" then some (⟨"a", 1, false, 5⟩ : CardProgress)
          else none) c.id).isSome && (some "a" == some c.id))).length ≤ 1
  ∧ ∃ B C, buildQueue [⟨"a", .function, "a", "a.ts", "x", "typescript", "e", 1⟩,
        ⟨"b", .type, "b", "b.ts", "y", "typescript", "e", 1⟩]
        (fun s => if s = "a" then some ⟨"a", 1, false, 5⟩ else none) (some "a")
        = ([⟨"a", .function, "a", "a.ts", "x", "typescript", "e", 1⟩,
          ⟨"b", .type, "b", "b.ts", "y", "typescript", "e", 1⟩] : List CodeCard).filter
          (unseenP (fun s => if s = "a" then some ⟨"a", 1, false, 5⟩ else none)) ++ B ++ C
      ∧ B.Perm (([⟨"a", .function, "a", "a.ts", "x", "typescript", "e", 1⟩,
          ⟨"b", .type, "b", "b.ts", "y", "typescript", "e", 1⟩] : List CodeCard).filter
          (needsWorkP (fun s => if s = "a" then some ⟨"a", 1, false, 5⟩ else none) (some "a")))
      ∧ C.Perm (([⟨"a", .function, "a", "a.ts", "x", "typescript", "e", 1⟩,
          ⟨"b", .type, "b", "b.ts", "y", "typescript", "e", 1⟩] : List CodeCard).filter
          (masteredP (fun s => if s = "a" then some ⟨"a", 1, false, 5⟩ else none) (some "a")))
      ∧ B.Pairwise (fun a b =>
          lastSeenKey (fun s => if s = "a" then some ⟨"a", 1, false, 5⟩ else none) a
            ≤ lastSeenKey (fun s => if s = "a" then some ⟨"a", 1, false, 5⟩ else none) b)
      ∧ C.Pairwise (fun a b =>
          lastSeenKey (fun s => if s = "a" then some ⟨"a", 1, false, 5⟩ else none) a
            ≤ lastSeenKey (fun s => if s = "a" then some ⟨"a", 1, false, 5⟩ else none) b) :=
  C2_buildQueue_postcondition _ _ _ (by decide)

/-- Claim C9: a `justSwipedId` whose card has no review-state entry excludes
nothing — the queue is identical to the queue with no exclusion, and every
unseen card (the just-swiped one included) is still present. -/
theorem C9_unseen_never_excluded (cards : List CodeCard)
    (progress : String → Option CardProgress) (cid : String)
    (h : progress cid = none) :
    buildQueue cards progress (some cid) = buildQueue cards progress none
  ∧ ∀ c ∈ cards, (progress c.id).isNone → c ∈ buildQueue cards progress (some cid) := by
  have hne : ∀ c : CodeCard, (progress c.id).isSome = true → (some c.id != some cid) = true := by
    intro c hs
    rcases Option.isSome_iff_exists.mp hs with ⟨p, hp⟩
    have : c.id ≠ cid := by
      intro he
      rw [he, h] at hp
      cases hp
    simp [this]
  constructor
  · unfold buildQueue
    have hB : cards.filter (needsWorkP progress (some cid)) =
        cards.filter (needsWorkP progress none) := by
      apply List.filter_congr
      intro c _
      cases hc : progress c.id with
      | none => simp [needsWorkP, hc]
      | some p =>
          have := hne c (by simp [hc])
          simp only [needsWorkP, hc]
          rw [this]
          simp [bne]
    have hC : cards.filter (masteredP progress (some cid)) =
        cards.filter (masteredP progress none) := by
      apply List.filter_congr
      intro c _
      cases hc : progress c.id with
      | none => simp [masteredP, hc]
      | some p =>
          have := hne c (by simp [hc])
          simp only [masteredP, hc]
          rw [this]
          simp [bne]
    rw [hB, hC]
  · intro c hc hu
    unfold buildQueue
    refine List.mem_append_left _ (List.mem_append_left _ ?_)
    exact List.mem_filter.mpr ⟨hc, by simpa [unseenP] using hu⟩

/-- Concrete instantiation of C9: the just-swiped id refers to an unseen
card, and the queue keeps all cards, unchanged. -/
theorem C9_unseen_never_excluded_witness :
    buildQueue [⟨"c", .file, "c", "c.py", "z", "python", "e", 1⟩]
        (fun _ => none) (some "c")
      = buildQueue [⟨"c", .file, "c", "c.py", "z", "python", "e", 1⟩] (fun _ => none) none
  ∧ ∀ c ∈ ([⟨"c", .file, "c", "c.py", "z", "python", "e", 1⟩] : List CodeCard),
      (((fun _ => none) : String → Option CardProgress) c.id).isNone →
        c ∈ buildQueue [⟨"c", .file, "c", "c.py", "z", "python", "e", 1⟩]
          (fun _ => none) (some "c") :=
  C9_unseen_never_excluded _ _ _ rfl

theorem colon_head_inj (a1 : List Char) : ∀ (a2 b1 b2 : List Char),
    ':' ∉ a1 → ':' ∉ a2 → a1 ++ ':' :: b1 = a2 ++ ':' :: b2 → a1 = a2 ∧ b1 = b2 := by
  induction a1 with
  | nil =>
      intro a2 b1 b2 _ h2 h
      cases a2 with
      | nil => simpa using h
      | cons c t =>
          simp only [List.nil_append, List.cons_append, List.cons.injEq] at h
          apply absurd _ h2
          rw [← h.1]
          exact List.mem_cons_self ':' t
  | cons c t ih =>
      intro a2 b1 b2 h1 h2 h
      cases a2 with
      | nil =>
          simp only [List.nil_append, List.cons_append, List.cons.injEq] at h
          apply absurd _ h1
          rw [h.1]
          exact List.mem_cons_self ':' t
      | cons d u =>
          simp only [List.cons_append, List.cons.injEq] at h
          have ht := ih u b1 b2 (fun hc => h1 (List.mem_cons_of_mem c hc))
            (fun hc => h2 (List.mem_cons_of_mem d hc)) h.2
          exact ⟨by rw [h.1, ht.1], ht.2⟩

theorem colon_last_inj (s1 s2 t1 t2 : List Char)
    (ht1 : ':' ∉ t1) (ht2 : ':' ∉ t2)
    (h : s1 ++ ':' :: t1 = s2 ++ ':' :: t2) : s1 = s2 ∧ t1 = t2 := by
  have hr : t1.reverse ++ ':' :: s1.reverse = t2.reverse ++ ':' :: s2.reverse := by
    have := congrArg List.reverse h
    simpa [List.reverse_append] using this
  have hh := colon_head_inj t1.reverse t2.reverse s1.reverse s2.reverse
    (by simpa using ht1) (by simpa using ht2) hr
  exact ⟨List.reverse_injective hh.2, List.reverse_injective hh.1⟩

theorem string_data_inj {s1 s2 : String} (h : s1.data = s2.data) : s1 = s2 := by
  cases s1
  cases s2
  exact congrArg String.mk h

theorem typeKey_colon_free (t : BlockType) : ':' ∉ (typeKey t).data := by
  cases t <;> decide

theorem typeKey_inj (t1 t2 : BlockType) (h : typeKey t1 = typeKey t2) : t1 = t2 := by
  cases t1 <;> cases t2 <;> first | rfl | (exact absurd h (by decide))

/-- The dedup key is injective as a function of the (name, kind) pair: no
kind tag contains a colon, so the segment after the last colon of the key
recovers the kind, and the rest the name. -/
theorem encKey_inj (n1 n2 : String) (t1 t2 : BlockType)
    (h : n1 ++ ":" ++ typeKey t1 = n2 ++ ":" ++ typeKey t2) : n1 = n2 ∧ t1 = t2 := by
  have hd : n1.data ++ ':' :: (typeKey t1).data = n2.data ++ ':' :: (typeKey t2).data := by
    have := congrArg String.data h
    simpa [String.data_append] using this
  have hc := colon_last_inj n1.data n2.data (typeKey t1).data (typeKey t2).data
    (typeKey_colon_free t1) (typeKey_colon_free t2) hd
  exact ⟨string_data_inj hc.1, typeKey_inj t1 t2 (string_data_inj hc.2)⟩

theorem uniqueBlocks_eq_dedupByPair (bs : List ExtractedBlock) :
    ∀ prs : List (String × BlockType),
      uniqueBlocks bs (prs.map (fun pr => pr.1 ++ ":" ++ typeKey pr.2)) = dedupByPair bs prs := by
  induction bs with
  | nil => intro prs; rfl
  | cons b rest ih =>
      intro prs
      have hmem : (dedupKey b ∈ prs.map (fun pr => pr.1 ++ ":" ++ typeKey pr.2)) ↔
          ((b.name, b.type) ∈ prs) := by
        constructor
        · intro hm
          rcases List.mem_map.mp hm with ⟨pr, hpr, he⟩
          have hk := encKey_inj pr.1 b.name pr.2 b.type he
          have : pr = (b.name, b.type) := Prod.ext hk.1 hk.2
          rw [← this]
          exact hpr
        · intro hm
          exact List.mem_map.mpr ⟨(b.name, b.type), hm, rfl⟩
      rw [uniqueBlocks, dedupByPair]
      by_cases hm : (b.name, b.type) ∈ prs
      · rw [if_pos (hmem.mpr hm), if_pos hm]
        exact ih prs
      · rw [if_neg (fun hc => hm (hmem.mp hc)), if_neg hm]
        have hcons : dedupKey b :: prs.map (fun pr => pr.1 ++ ":" ++ typeKey pr.2)
            = ((b.name, b.type) :: prs).map (fun pr => pr.1 ++ ":" ++ typeKey pr.2) := by
          simp [dedupKey]
        rw [hcons, ih ((b.name, b.type) :: prs)]

/-- Claim C5: `rankBlocks` deduplicates by the (name, kind) pair keeping
first occurrences, then orders by the additive score — descending, with
ties in their prior relative order (stability), which with purity makes the
output order a deterministic function of the input list. -/
theorem C5_rankBlocks_spec (bs : List ExtractedBlock) :
    uniqueBlocks bs [] = dedupByPair bs []
  ∧ (rankBlocks bs).Perm (uniqueBlocks bs [])
  ∧ (rankBlocks bs).Pairwise (fun a b => score b ≤ score a)
  ∧ ∀ s : Nat, (rankBlocks bs).filter (fun b => score b == s)
      = (uniqueBlocks bs []).filter (fun b => score b == s) := by
  refine ⟨?_, stSort_perm _ _, ?_, ?_⟩
  · have := uniqueBlocks_eq_dedupByPair bs []
    simpa using this
  · have := stSort_pairwise (fun b => -(score b : Int)) (uniqueBlocks bs [])
    refine this.imp ?_
    intro a b hab
    have : (score b : Int) ≤ (score a : Int) := by omega
    exact_mod_cast this
  · intro s
    have hpt : ∀ b : ExtractedBlock,
        ((-(score b : Int) == -(s : Int))) = (score b == s) := by
      intro b
      by_cases h : score b = s
      · simp [h]
      · have hne : -(score b : Int) ≠ -(s : Int) := by
          intro hc
          exact h (by exact_mod_cast neg_inj.mp hc)
        simp [h, hne]
    have e2 : (uniqueBlocks bs []).filter (fun b => (-(score b : Int) == -(s : Int)))
        = (uniqueBlocks bs []).filter (fun b => score b == s) :=
      List.filter_congr (fun b _ => hpt b)
    have e3 : (stSort (fun b => -(score b : Int)) (uniqueBlocks bs [])).filter
          (fun b => (-(score b : Int) == -(s : Int)))
        = (stSort (fun b => -(score b : Int)) (uniqueBlocks bs [])).filter
          (fun b => score b == s) :=
      List.filter_congr (fun b _ => hpt b)
    have h1 := stSort_filter (fun b => -(score b : Int)) (uniqueBlocks bs []) (-(s : Int))
    rw [rankBlocks, ← e3, h1, e2]

/-- The head of a `skipStr` remainder, when nonempty, is the closing
quote. -/
theorem skipStr_snd_head (q : Char) : ∀ (l : List Char) (c : Char) (r2 : List Char),
    (skipStr q l).2 = c :: r2 → c = q := by
  intro l
  induction l using skipStr.induct q with
  | case1 => intro c r2 h; cases h
  | case2 c t h =>
      intro c' r2 hh
      rw [skipStr.eq_def] at hh
      simp [h] at hh
      exact (eq_of_beq h ▸ hh.1.symm)
  | case3 c h1 h2 =>
      intro c' r2 hh
      rw [skipStr.eq_def] at hh
      simp [h1, h2] at hh
  | case4 c h1 h2 c2 t2 ih =>
      intro c' r2 hh
      rw [skipStr.eq_def] at hh
      simp [h1, h2] at hh
      exact ih c' r2 hh
  | case5 c t h1 h2 ih =>
      intro c' r2 hh
      rw [skipStr.eq_def] at hh
      simp [h1, h2] at hh
      exact ih c' r2 hh

/-- Re-running `skipStr` over the characters it consumed, followed by the
closing quote and anything else, stops at that closing quote. -/
theorem skipStr_replay (q : Char) : ∀ (l sk r2 : List Char),
    skipStr q l = (sk, q :: r2) → ∀ t : List Char, skipStr q (sk ++ q :: t) = (sk, q :: t) := by
  intro l
  induction l using skipStr.induct q with
  | case1 => intro sk r2 h; cases h
  | case2 c tl h =>
      intro sk r2 hh t
      rw [skipStr.eq_def] at hh
      simp [h] at hh
      obtain ⟨hsk, hcq, htl⟩ := hh
      subst hsk
      rw [List.nil_append, skipStr.eq_def]
      simp
  | case3 c h1 h2 =>
      intro sk r2 hh
      rw [skipStr.eq_def] at hh
      simp [h1, h2] at hh
  | case4 c h1 h2 c2 t2 ih =>
      intro sk r2 hh t
      rw [skipStr.eq_def] at hh
      simp [h1, h2] at hh
      obtain ⟨hsk, hr⟩ := hh
      have hrec := ih (skipStr q t2).1 r2 ?_ t
      · rw [← hsk]
        rw [List.cons_append, List.cons_append, skipStr.eq_def]
        simp [h1, h2, hrec]
      · rw [Prod.ext_iff]
        exact ⟨rfl, hr⟩
  | case5 c tl h1 h2 ih =>
      intro sk r2 hh t
      rw [skipStr.eq_def] at hh
      simp [h1, h2] at hh
      obtain ⟨hsk, hr⟩ := hh
      have hrec := ih (skipStr q tl).1 r2 ?_ t
      · rw [← hsk]
        rw [List.cons_append, skipStr.eq_def]
        simp [h1, h2, hrec]
      · rw [Prod.ext_iff]
        exact ⟨rfl, hr⟩

theorem getLast?_cons_ne_nil {α : Type} {a : α} {l : List α} (h : l ≠ []) :
    (a :: l).getLast? = l.getLast? := by
  cases l with
  | nil => exact absurd rfl h
  | cons b t => exact List.getLast?_cons_cons

/-- Soundness of the matcher loop: a returned block is a prefix of the
input, restores the running depth to zero (net string-skipping brace count
`-d`), is nonempty, and ends with a closing brace. -/
theorem braceLoop_sound : ∀ (d : Int) (fo : Bool) (l : List Char) (blk : List Char),
    braceLoop d fo l = some blk →
    (∃ t, blk ++ t = l) ∧ d + countNet blk = 0 ∧ blk ≠ [] ∧
      blk.getLast? = some '\x7d' := by
  intro d fo l
  induction d, fo, l using braceLoop.induct with
  | case1 d fo =>
      intro blk h
      rw [braceLoop.eq_def] at h
      cases h
  | case2 d fo ch rest h1 ih =>
      intro blk h
      rw [braceLoop.eq_def] at h
      simp [h1, Option.map_eq_some'] at h
      obtain ⟨blk', hb, rfl⟩ := h
      obtain ⟨⟨t, ht⟩, hc, hne, hlast⟩ := ih blk' hb
      refine ⟨⟨t, by rw [List.cons_append, ht]⟩, ?_, by simp, ?_⟩
      · rw [countNet.eq_def]
        simp [h1]
        omega
      · rw [getLast?_cons_ne_nil hne]
        exact hlast
  | case3 d fo ch rest h1 h2 h3 =>
      intro blk h
      rw [braceLoop.eq_def] at h
      simp [h1, h2, h3] at h
      subst h
      have hch : ch = '\x7d' := eq_of_beq h2
      have hd : d = 1 := by
        have := (Bool.and_eq_true _ _).mp h3
        have h4 : (d - 1 == 0) = true := this.2
        have : d - 1 = 0 := by exact_mod_cast eq_of_beq h4
        omega
      refine ⟨⟨rest, rfl⟩, ?_, by simp, by simp [hch]⟩
      rw [countNet.eq_def]
      simp [h1, h2, countNet, hd]
  | case4 d fo ch rest h1 h2 h3 ih =>
      intro blk h
      rw [braceLoop.eq_def] at h
      simp [h1, h2, h3, Option.map_eq_some'] at h
      obtain ⟨blk', hb, rfl⟩ := h
      obtain ⟨⟨t, ht⟩, hc, hne, hlast⟩ := ih blk' hb
      refine ⟨⟨t, by rw [List.cons_append, ht]⟩, ?_, by simp, ?_⟩
      · rw [countNet.eq_def]
        simp [h1, h2]
        omega
      · rw [getLast?_cons_ne_nil hne]
        exact hlast
  | case5 d fo ch rest h1 h2 h3 hskip =>
      intro blk h
      rw [braceLoop.eq_def] at h
      simp [h1, h2, h3] at h
      split at h
      · cases h
      · rename_i q2 r2 heq
        rw [hskip] at heq
        cases heq
  | case6 d fo ch rest h1 h2 h3 q2 r2 hskip ih =>
      intro blk h
      rw [braceLoop.eq_def] at h
      simp [h1, h2, h3] at h
      split at h
      · rename_i heq
        rw [hskip] at heq
        cases heq
      rename_i q2' r2' heq
      rw [hskip] at heq
      obtain ⟨rfl, rfl⟩ : q2 = q2' ∧ r2 = r2' := by simpa using heq
      rw [Option.map_eq_some'] at h
      obtain ⟨blk', hb, rfl⟩ := h
      obtain ⟨⟨t, ht⟩, hc, hne, hlast⟩ := ih blk' hb
      have hq2 : q2 = ch := skipStr_snd_head ch rest q2 r2 hskip
      subst hq2
      have hsplit : (skipStr q2 rest).1 ++ q2 :: r2 = rest := by
        have hs := skipStr_sound q2 rest
        rw [hskip] at hs
        exact hs
      have hreplay := skipStr_replay q2 rest (skipStr q2 rest).1 r2
        (by rw [Prod.ext_iff]; exact ⟨rfl, hskip⟩) blk'
      set sk := (skipStr q2 rest).1 with hsk
      refine ⟨⟨t, ?_⟩, ?_, by simp, ?_⟩
      · rw [← hsplit, ← ht]
        simp
      · rw [countNet.eq_def]
        dsimp only
        rw [if_neg h1, if_neg h2, if_pos h3]
        split
        · rename_i heq2
          rw [hreplay] at heq2
          simp at heq2
        · rename_i hd r2' heq2
          rw [hreplay] at heq2
          simp only [List.cons.injEq] at heq2
          rw [← heq2.2]
          exact hc
      · rw [getLast?_cons_ne_nil (by simp), List.getLast?_append,
          getLast?_cons_ne_nil hne, hlast]
        simp
  | case7 d fo ch rest h1 h2 h3 ih =>
      intro blk h
      rw [braceLoop.eq_def] at h
      simp [h1, h2, h3, Option.map_eq_some'] at h
      obtain ⟨blk', hb, rfl⟩ := h
      obtain ⟨⟨t, ht⟩, hc, hne, hlast⟩ := ih blk' hb
      refine ⟨⟨t, by rw [List.cons_append, ht]⟩, ?_, by simp, ?_⟩
      · rw [countNet.eq_def]
        simp [h1, h2, h3]
        exact hc
      · rw [getLast?_cons_ne_nil hne]
        exact hlast

/-- Claim C4 (amended): for every source text and start offset, a
non-`null` result of `extractBraceBlock` is a substring of the source
beginning exactly at the given offset — not at the first unescaped opening
brace, which may lie strictly after the offset — whose curly-brace depth
counted outside string/char/template literals is exactly balanced
(`countNet = 0`), nonempty, and ending with the brace that closes the first
counted opener; and on the unbalanced input "function f() { return 1;"
(no balancing closer) it returns `null`, never a wrong slice. -/
theorem C4_braceMatcher (source : String) (startIdx : Nat) (blk : String)
    (h : extractBraceBlock source startIdx = some blk) :
    ((∃ t, blk.data ++ t = source.data.drop startIdx)
      ∧ countNet blk.data = 0 ∧ blk.data ≠ [] ∧ blk.data.getLast? = some '\x7d')
  ∧ extractBraceBlock "function f() \x7b return 1;" 0 = none := by
  constructor
  · rw [extractBraceBlock, Option.map_eq_some'] at h
    obtain ⟨bl, hb, rfl⟩ := h
    have := braceLoop_sound 0 false _ bl hb
    simpa using this
  · have hdata : ("function f() \x7b return 1;" : String).data
        = ['f','u','n','c','t','i','o','n',' ','f','(',')',' ','\x7b',
           ' ','r','e','t','u','r','n',' ','1',';'] := rfl
    rw [extractBraceBlock, hdata]
    simp [braceLoop]

/-- Concrete instantiation of the amended C4 on the balanced input "a{}"
at offset 0, where the matcher returns the slice "a{}". -/
theorem C4_braceMatcher_witness :
    ((∃ t, ("a\x7b\x7d" : String).data ++ t = ("a\x7b\x7d" : String).data.drop 0)
      ∧ countNet ("a\x7b\x7d" : String).data = 0 ∧ ("a\x7b\x7d" : String).data ≠ []
      ∧ ("a\x7b\x7d" : String).data.getLast? = some '\x7d')
  ∧ extractBraceBlock "function f() \x7b return 1;" 0 = none :=
  C4_braceMatcher "a\x7b\x7d" 0 "a\x7b\x7d" (by
    have hdata : ("a\x7b\x7d" : String).data = ['a', '\x7b', '\x7d'] := rfl
    rw [extractBraceBlock, hdata]
    simp [braceLoop])

/-- Claim C4 counterexample: on the source "a{}" at offset 0 the matcher
returns the full slice "a{}", whose first character is 'a' — the returned
substring starts at the given offset, not with the first unescaped opening
brace (which is at index 1), contradicting the claim as stated. -/
theorem C4_counterexample :
    extractBraceBlock "a\x7b\x7d" 0 = some "a\x7b\x7d"
  ∧ ("a\x7b\x7d" : String).data.head? = some 'a'
  ∧ ('a' = '\x7b' → False) := by
  refine ⟨?_, by decide, by decide⟩
  have hdata : ("a\x7b\x7d" : String).data = ['a', '\x7b', '\x7d'] := rfl
  rw [extractBraceBlock, hdata]
  simp [braceLoop]

/-- Claim C6 (amended): the generated difficulty is the tier mapping
(complexity ≥ 4 → 3, ≥ 2 → 2, else 1) of the sum of the five summands of
the claim, with the recursion summand as the code computes it: +2 when the
kind is `function` and `name(` occurs at an identifier boundary more than
once in the block's entire text — the declaration header included — rather
than "more than once inside its own body". -/
theorem C6_estimateDifficulty (b : ExtractedBlock) :
    estimateDifficulty b =
      tierOf (lineBonus b.lineCount + nestBonus b.code + genericBonus b.code
        + asyncBonus b.code + recursionBonus b) := rfl

/-- Claim C6 counterexample: the one-line function `function f(){f()}`
calls itself exactly once inside its body, so the claim's formula gives
complexity 0 and difficulty 1; the code counts the header occurrence of
`f(` too (2 > 1 matches), adds +2 and yields difficulty 2. -/
theorem C6_counterexample :
    estimateDifficulty recursionCexBlock = 2
  ∧ estimateDifficultyClaimed recursionCexBlock = 1
  ∧ countCalls recursionCexBlock.name recursionCexBlock.code = 2
  ∧ bodyCallCount recursionCexBlock.name recursionCexBlock.code = 1 := by
  have hcount : countCalls "f" "function f()\x7bf()\x7d" = 2 := by
    simp [countCalls, countCallsAux]
    decide
  have hbody : bodyCallCount "f" "function f()\x7bf()\x7d" = 1 := by
    simp [bodyCallCount, countCallsAux]
    decide
  refine ⟨?_, ?_, hcount, hbody⟩
  · simp only [estimateDifficulty, recursionCexBlock]
    simp only [hcount]
    decide
  · simp only [estimateDifficultyClaimed, recursionCexBlock]
    simp only [hbody]
    decide

/-- Claim C7: whenever the per-language extraction finds nothing, a file of
at most 40 lines becomes exactly one whole-file block — kind `file`, named
by the filename, over the trimmed content — and a longer file yields zero
blocks. -/
theorem C7_wholeFileFallback (ex : LangExtractors) (file : FileContent)
    (h : dispatchExtract ex file = []) :
    (countLines file.content ≤ 40 →
      extractBlocks ex file =
        [{ name := (file.path.splitOn "/").getLastD file.path, type := BlockType.file,
           code := file.content.trim, filePath := file.path,
           language := detectLanguage file.path, jsDoc := none,
           lineCount := countLines file.content }])
  ∧ (40 < countLines file.content → extractBlocks ex file = []) := by
  constructor
  · intro h40
    rw [extractBlocks]
    simp [h, h40]
  · intro h40
    have hnle : ¬ countLines file.content ≤ 40 := by omega
    rw [extractBlocks]
    simp [h, hnle]

theorem dispatchExtract_empty (file : FileContent) :
    dispatchExtract emptyExtractors file = [] := by
  rw [dispatchExtract]
  split <;> rfl

/-- Concrete instantiation of C7: empty extractors on a one-line TypeScript
file produce the single whole-file block. -/
theorem C7_wholeFileFallback_witness :
    (countLines (FileContent.mk "src/a.ts" "let x = 1").content ≤ 40 →
      extractBlocks emptyExtractors (FileContent.mk "src/a.ts" "let x = 1") =
        [{ name := ((FileContent.mk "src/a.ts" "let x = 1").path.splitOn "/").getLastD
             (FileContent.mk "src/a.ts" "let x = 1").path,
           type := BlockType.file,
           code := (FileContent.mk "src/a.ts" "let x = 1").content.trim,
           filePath := (FileContent.mk "src/a.ts" "let x = 1").path,
           language := detectLanguage (FileContent.mk "src/a.ts" "let x = 1").path,
           jsDoc := none,
           lineCount := countLines (FileContent.mk "src/a.ts" "let x = 1").content }])
  ∧ (40 < countLines (FileContent.mk "src/a.ts" "let x = 1").content →
      extractBlocks emptyExtractors (FileContent.mk "src/a.ts" "let x = 1") = []) :=
  C7_wholeFileFallback emptyExtractors (FileContent.mk "src/a.ts" "let x = 1")
    (dispatchExtract_empty (FileContent.mk "src/a.ts" "let x = 1"))

theorem generateCards_length (blocks : List ExtractedBlock) (m : Nat) :
    (generateCards blocks m).length = min m blocks.length := by
  simp [generateCards]

/-- Claim C8: with a parsed repo reference, `ingestRepo` fails with the
user-visible "No supported code files found in this repo." exactly when
filtering finds zero code files, fails with "Couldn't extract any learnable
code blocks." when extraction and ranking produce zero blocks across all
fetched files, and a successful ingestion never carries an empty card
set. -/
theorem C8_pipelineEmptiness (ex : LangExtractors) (pr : String × String) (meta : RepoMeta)
    (tree : List TreeEntry) (files : List FileContent) :
    (filterCodeFiles tree = [] →
      ingestRepo ex (some pr) meta tree files =
        Except.error "No supported code files found in this repo.")
  ∧ (filterCodeFiles tree ≠ [] →
      rankBlocks (files.flatMap (fun f => extractBlocks ex f)) = [] →
      ingestRepo ex (some pr) meta tree files =
        Except.error ("Couldn\x27t extract any learnable code blocks."))
  ∧ (∀ r, ingestRepo ex (some pr) meta tree files = Except.ok r → r.cards ≠ []) := by
  refine ⟨?_, ?_, ?_⟩
  · intro hempty
    simp [ingestRepo, hempty]
  · intro hne hrank
    have hlen : ¬ (filterCodeFiles tree).length = 0 := by
      simpa [List.length_eq_zero] using hne
    simp [ingestRepo, hlen, hrank]
  · intro r hr
    simp only [ingestRepo] at hr
    split at hr
    · cases hr
    · split at hr
      · cases hr
      · rename_i hrank
        cases hr
        intro hnil
        have := congrArg List.length hnil
        rw [generateCards_length] at this
        simp [MAX_CARDS] at this
        exact hrank (by simpa [List.length_eq_zero] using this)

/-- Concrete instantiation of C8: an empty tree has no supported code
files, and ingestion surfaces the terminal error. -/
theorem C8_pipelineEmptiness_witness :
    ingestRepo emptyExtractors (some ("o", "r")) sampleMeta [] [] =
      Except.error "No supported code files found in this repo." :=
  (C8_pipelineEmptiness emptyExtractors ("o", "r") sampleMeta [] []).1 rfl

end Doomscroll

